import Mathlib

/-!
# LazyQL — verification of the lazy field-resolution engine

A shallow embedding of the core of the `lazyql` TypeScript library:

* the naming-convention codec (`src/core/getter-mapper.ts`):
  `fieldToGetterName`, `getterToFieldName` and their helpers;
* the validator (`src/core/validator.ts`): `validateClass` over the result
  of `analyzeDTOClass`;
* the global configuration module (`src/core/config.ts`): `configure`,
  `getConfig`, `handleError`;
* the resolution interceptor (`src/core/proxy-factory.ts`): the `get`,
  `has` and `ownKeys` traps of `createLazyProxy`, and the shared-method
  memoization installed by `wrapSharedMethods`, the latter given as a
  state machine over access and promise-settlement events.

JavaScript strings are embedded as `String` (with the character-level
recursions on `List Char`); JS `Map`/`Set` objects are embedded as
association lists / lists with JS `Map.set` semantics (in-place update of
an existing key, else append).  Logging and timing calls are side-effect
only and are elided.
-/

namespace LazyQL

/-! ## Character helpers

The codec only ever upcases/downcases ASCII letters (the regexes in
`getter-mapper.ts` capture `[a-z]` and `[A-Z]`); `upperChar`/`lowerChar`
embed JS `toUpperCase`/`toLowerCase` on that domain and are the identity
elsewhere. -/

def isLowerAlpha (c : Char) : Bool := 'a' ≤ c && c ≤ 'z'

def isUpperAlpha (c : Char) : Bool := 'A' ≤ c && c ≤ 'Z'

def upperChar (c : Char) : Char :=
  if isLowerAlpha c then Char.ofNat (c.toNat - 32) else c

def lowerChar (c : Char) : Char :=
  if isUpperAlpha c then Char.ofNat (c.toNat + 32) else c

/-! ## Naming Convention Codec (`src/core/getter-mapper.ts`) -/

/-- `snakeToCamel`: JS `str.replace(/_([a-z])/g, (_, l) => l.toUpperCase())`,
as a left-to-right scan over the characters. -/
def snakeToCamelChars : List Char → List Char
  | [] => []
  | [c] => [c]
  | c1 :: c2 :: rest =>
    if c1 == '_' && isLowerAlpha c2 then upperChar c2 :: snakeToCamelChars rest
    else c1 :: snakeToCamelChars (c2 :: rest)

/-- `capitalize`: `str.charAt(0).toUpperCase() + str.slice(1)`. -/
def capitalizeChars : List Char → List Char
  | [] => []
  | c :: rest => upperChar c :: rest

/-- `camelToSnake`: JS `str.replace(/[A-Z]/g, l => "_" + l.toLowerCase())`. -/
def camelToSnakeChars : List Char → List Char
  | [] => []
  | c :: rest =>
    if isUpperAlpha c then '_' :: lowerChar c :: camelToSnakeChars rest
    else c :: camelToSnakeChars rest

/-- `withoutGet.charAt(0).toLowerCase() + withoutGet.slice(1)` inside
`getterToFieldName`. -/
def lowerFirstChars : List Char → List Char
  | [] => []
  | c :: rest => lowerChar c :: rest

def snakeToCamel (s : String) : String := ⟨snakeToCamelChars s.data⟩

def capitalize (s : String) : String := ⟨capitalizeChars s.data⟩

/-- `fieldToGetterName(fieldName)`: prefix the verb token `get` and
capitalize the camel-cased field name. -/
def fieldToGetterName (fieldName : String) : String :=
  "get" ++ capitalize (snakeToCamel fieldName)

/-- `getterToFieldName(getterName)`: a name that does not start with `get`,
or is exactly `get`, is returned unchanged; otherwise drop the prefix,
lowercase the first character and convert camelCase to snake_case. -/
def getterToFieldNameChars : List Char → List Char
  | 'g' :: 'e' :: 't' :: rest =>
    if rest.isEmpty then 'g' :: 'e' :: 't' :: rest
    else camelToSnakeChars (lowerFirstChars rest)
  | other => other

def getterToFieldName (getterName : String) : String :=
  ⟨getterToFieldNameChars getterName.data⟩

/-- `isGetterMethod(methodName)`: starts with `get` and has at least one
character after the prefix. -/
def isGetterMethod (methodName : String) : Bool :=
  methodName.startsWith "get" && methodName.length > 3

/-- Character-level form of `fieldToGetterName`. -/
def fieldToGetterNameChars (f : List Char) : List Char :=
  'g' :: 'e' :: 't' :: capitalizeChars (snakeToCamelChars f)

/-! ### Facts about the character helpers -/

theorem toNat_ofNat_valid (n : Nat) (h : n.isValidChar) : (Char.ofNat n).toNat = n := by
  simp [Char.ofNat, h, Char.ofNatAux, Char.toNat, UInt32.toNat, BitVec.toNat_ofNatLt]

theorem char_eq_of_toNat_eq {a b : Char} (h : a.toNat = b.toNat) : a = b := by
  apply Char.eq_of_val_eq
  apply UInt32.eq_of_toBitVec_eq
  exact BitVec.eq_of_toNat_eq h

theorem isLowerAlpha_iff {c : Char} : isLowerAlpha c = true ↔ 97 ≤ c.toNat ∧ c.toNat ≤ 122 := by
  show (decide (97 ≤ c.toNat) && decide (c.toNat ≤ 122)) = true ↔ _
  simp

theorem isUpperAlpha_iff {c : Char} : isUpperAlpha c = true ↔ 65 ≤ c.toNat ∧ c.toNat ≤ 90 := by
  show (decide (65 ≤ c.toNat) && decide (c.toNat ≤ 90)) = true ↔ _
  simp

theorem toNat_upperChar {c : Char} (h : isLowerAlpha c = true) :
    (upperChar c).toNat = c.toNat - 32 := by
  obtain ⟨h1, h2⟩ := isLowerAlpha_iff.mp h
  have hv : (c.toNat - 32).isValidChar := by left; omega
  simp only [upperChar, h, if_true]
  exact toNat_ofNat_valid _ hv

theorem upperChar_isUpper {c : Char} (h : isLowerAlpha c = true) :
    isUpperAlpha (upperChar c) = true := by
  obtain ⟨h1, h2⟩ := isLowerAlpha_iff.mp h
  rw [isUpperAlpha_iff, toNat_upperChar h]
  omega

theorem lowerChar_upperChar {c : Char} (h : isLowerAlpha c = true) :
    lowerChar (upperChar c) = c := by
  obtain ⟨h1, h2⟩ := isLowerAlpha_iff.mp h
  have hu := upperChar_isUpper h
  simp only [lowerChar, hu, if_true]
  apply char_eq_of_toNat_eq
  rw [toNat_upperChar h] at *
  have hv : (c.toNat - 32 + 32).isValidChar := by left; omega
  rw [toNat_ofNat_valid _ hv]
  omega

theorem lower_ne_underscore {c : Char} (h : isLowerAlpha c = true) : (c == '_') = false := by
  obtain ⟨h1, h2⟩ := isLowerAlpha_iff.mp h
  rw [beq_eq_false_iff_ne]
  intro he
  subst he
  simp at h1

theorem lower_not_upper {c : Char} (h : isLowerAlpha c = true) : isUpperAlpha c = false := by
  obtain ⟨h1, h2⟩ := isLowerAlpha_iff.mp h
  rw [Bool.eq_false_iff]
  intro hc
  have := isUpperAlpha_iff.mp hc
  omega

/-! ### The codec round-trip on well-formed field names (claim C7)

A well-formed field name is a nonempty list of nonempty lowercase words
joined by single underscores. -/

/-- A nonempty word of lowercase ASCII letters. -/
def LowerWord (w : List Char) : Prop := w ≠ [] ∧ ∀ c ∈ w, isLowerAlpha c = true

/-- Join words with single underscores (the shape of a well-formed
snake_case field name). -/
def joinWords : List (List Char) → List Char
  | [] => []
  | [w] => w
  | w :: ws => w ++ '_' :: joinWords ws

/-- All-but-first-word part of a joined name: an underscore before each word. -/
def tailJoin : List (List Char) → List Char
  | [] => []
  | w :: ws => '_' :: (w ++ tailJoin ws)

/-- All-but-first-word part of the camelCased name: each word capitalized. -/
def capJoin : List (List Char) → List Char
  | [] => []
  | w :: ws => capitalizeChars w ++ capJoin ws

theorem joinWords_cons (w : List Char) (ws : List (List Char)) :
    joinWords (w :: ws) = w ++ tailJoin ws := by
  induction ws generalizing w with
  | nil => simp [joinWords, tailJoin]
  | cons w2 ws' ih =>
    show joinWords (w :: w2 :: ws') = _
    rw [joinWords, ih w2, tailJoin]
    simp

theorem snakeToCamelChars_cons {c : Char} (rest : List Char) (h : (c == '_') = false) :
    snakeToCamelChars (c :: rest) = c :: snakeToCamelChars rest := by
  cases rest with
  | nil => rfl
  | cons c2 rest' => simp [snakeToCamelChars, h]

theorem snakeToCamelChars_lower_append {w : List Char} (s : List Char)
    (h : ∀ c ∈ w, isLowerAlpha c = true) :
    snakeToCamelChars (w ++ s) = w ++ snakeToCamelChars s := by
  induction w with
  | nil => simp
  | cons c w' ih =>
    have hc : isLowerAlpha c = true := h c (by simp)
    rw [List.cons_append, snakeToCamelChars_cons _ (lower_ne_underscore hc),
      ih (fun c hm => h c (by simp [hm]))]
    simp

theorem snakeToCamelChars_underscore {c : Char} (s : List Char) (h : isLowerAlpha c = true) :
    snakeToCamelChars ('_' :: c :: s) = upperChar c :: snakeToCamelChars s := by
  simp [snakeToCamelChars, h]

theorem snakeToCamelChars_tailJoin {ws : List (List Char)}
    (h : ∀ u ∈ ws, LowerWord u) :
    snakeToCamelChars (tailJoin ws) = capJoin ws := by
  induction ws with
  | nil => rfl
  | cons w ws' ih =>
    obtain ⟨hne, hlow⟩ := h w (by simp)
    obtain ⟨c, wt, rfl⟩ := List.exists_cons_of_ne_nil hne
    have hc : isLowerAlpha c = true := hlow c (by simp)
    rw [tailJoin, List.cons_append, snakeToCamelChars_underscore _ hc,
      snakeToCamelChars_lower_append _ (fun d hm => hlow d (by simp [hm])),
      ih (fun u hm => h u (by simp [hm]))]
    simp [capJoin, capitalizeChars]

theorem camelToSnakeChars_lower_append {w : List Char} (s : List Char)
    (h : ∀ c ∈ w, isLowerAlpha c = true) :
    camelToSnakeChars (w ++ s) = w ++ camelToSnakeChars s := by
  induction w with
  | nil => simp
  | cons c w' ih =>
    have hc : isLowerAlpha c = true := h c (by simp)
    rw [List.cons_append, camelToSnakeChars, if_neg (by simp [lower_not_upper hc]),
      ih (fun c hm => h c (by simp [hm]))]
    simp

theorem camelToSnakeChars_capJoin {ws : List (List Char)}
    (h : ∀ u ∈ ws, LowerWord u) :
    camelToSnakeChars (capJoin ws) = tailJoin ws := by
  induction ws with
  | nil => rfl
  | cons w ws' ih =>
    obtain ⟨hne, hlow⟩ := h w (by simp)
    obtain ⟨c, wt, rfl⟩ := List.exists_cons_of_ne_nil hne
    have hc : isLowerAlpha c = true := hlow c (by simp)
    rw [capJoin, capitalizeChars, List.cons_append, camelToSnakeChars,
      if_pos (upperChar_isUpper hc), lowerChar_upperChar hc,
      camelToSnakeChars_lower_append _ (fun d hm => hlow d (by simp [hm])),
      ih (fun u hm => h u (by simp [hm])), tailJoin]
    simp

theorem codec_roundtrip_chars {w : List Char} {ws : List (List Char)}
    (hw : LowerWord w) (hws : ∀ u ∈ ws, LowerWord u) :
    getterToFieldNameChars (fieldToGetterNameChars (joinWords (w :: ws))) =
      joinWords (w :: ws) := by
  obtain ⟨hne, hlow⟩ := hw
  obtain ⟨c, wt, rfl⟩ := List.exists_cons_of_ne_nil hne
  have hc : isLowerAlpha c = true := hlow c (by simp)
  rw [fieldToGetterNameChars, joinWords_cons,
    snakeToCamelChars_lower_append _ hlow, snakeToCamelChars_tailJoin hws]
  show getterToFieldNameChars ('g' :: 'e' :: 't' :: capitalizeChars (c :: (wt ++ capJoin ws))) = _
  rw [capitalizeChars, getterToFieldNameChars, if_neg (by simp), lowerFirstChars,
    lowerChar_upperChar hc, camelToSnakeChars,
    if_neg (by simp [lower_not_upper hc]),
    camelToSnakeChars_lower_append _ (fun d hm => hlow d (by simp [hm])),
    camelToSnakeChars_capJoin hws]
  simp

theorem data_fieldToGetterName (f : String) :
    (fieldToGetterName f).data = fieldToGetterNameChars f.data := by
  obtain ⟨l⟩ := f
  rfl

/-- C7: for every field name composed of lowercase words joined by
underscores, `getterToFieldName (fieldToGetterName f) = f` — the codec's
two conversions are mutually inverse on well-formed field names. -/
theorem c7_codec_roundtrip (ws : List (List Char)) (hne : ws ≠ [])
    (hws : ∀ u ∈ ws, LowerWord u) :
    getterToFieldName (fieldToGetterName ⟨joinWords ws⟩) = ⟨joinWords ws⟩ := by
  obtain ⟨w, ws', rfl⟩ := List.exists_cons_of_ne_nil hne
  show String.mk (getterToFieldNameChars (fieldToGetterName ⟨joinWords (w :: ws')⟩).data) = _
  rw [data_fieldToGetterName]
  show String.mk (getterToFieldNameChars (fieldToGetterNameChars (joinWords (w :: ws')))) = _
  rw [codec_roundtrip_chars (hws w (by simp)) (fun u hm => hws u (by simp [hm]))]

/-- Witness for C7 at the concrete field name `entity_id`. -/
theorem c7_codec_roundtrip_witness :
    getterToFieldName (fieldToGetterName "entity_id") = "entity_id" := by
  have h := c7_codec_roundtrip [['e','n','t','i','t','y'], ['i','d']]
    (by decide) (by simp only [LowerWord]; decide)
  exact h

/-! ## JS `Map` / `Set` embeddings

`Map.get` / `Map.set` / `Map.delete` keep insertion order; `set` updates an
existing key in place, otherwise appends.  `Set.add` appends unless the
element is present. -/

def alookup {α : Type} : List (String × α) → String → Option α
  | [], _ => none
  | (k, v) :: rest, key => if k == key then some v else alookup rest key

def mapSet {α : Type} : List (String × α) → String → α → List (String × α)
  | [], k, v => [(k, v)]
  | (k', v') :: rest, k, v =>
    if k' == k then (k, v) :: rest else (k', v') :: mapSet rest k v

def eraseKey {α : Type} : List (String × α) → String → List (String × α)
  | [], _ => []
  | (k', v') :: rest, k => if k' == k then rest else (k', v') :: eraseKey rest k

def setAdd (s : List String) (x : String) : List String :=
  if s.contains x then s else s ++ [x]

theorem alookup_mapSet_self {α : Type} (m : List (String × α)) (k : String) (v : α) :
    alookup (mapSet m k v) k = some v := by
  induction m with
  | nil => simp [mapSet, alookup]
  | cons p rest ih =>
    obtain ⟨k', v'⟩ := p
    by_cases h : k' = k
    · simp [mapSet, h, alookup]
    · simp only [mapSet, alookup, beq_iff_eq, if_neg h]
      exact ih

theorem alookup_mapSet_ne {α : Type} (m : List (String × α)) {k k' : String} (v : α)
    (h : k' ≠ k) : alookup (mapSet m k v) k' = alookup m k' := by
  induction m with
  | nil => simp [mapSet, alookup, Ne.symm h]
  | cons p rest ih =>
    obtain ⟨k0, v0⟩ := p
    by_cases h0 : k0 = k
    · subst h0
      simp [mapSet, alookup, Ne.symm h]
    · simp only [mapSet, beq_iff_eq, if_neg h0, alookup]
      by_cases h1 : k0 = k'
      · simp [h1]
      · simp [h1, ih]

theorem alookup_isSome_iff_mem_keys {α : Type} (m : List (String × α)) (k : String) :
    (alookup m k).isSome = true ↔ k ∈ m.map Prod.fst := by
  induction m with
  | nil => simp [alookup]
  | cons p rest ih =>
    obtain ⟨k0, v0⟩ := p
    by_cases h : k0 = k
    · simp [alookup, h]
    · simp [alookup, h, ih, Ne.symm h]

/-! ## Data model (`src/types.ts`) -/

/-- One discovered DTO field (`DTOFieldInfo`); the runtime `type` payload
and the optional `detectionMethod` tag play no role in validation and are
omitted. -/
structure DTOFieldInfo where
  name : String
  isRequired : Bool
deriving DecidableEq, Repr

/-- Per-class options of the `@LazyQL` decorator (`LazyQLOptions`). -/
structure LazyQLOptions where
  debug : Option Bool := none
  nestedProxy : Option Bool := none
deriving DecidableEq, Repr

/-- `LazyQLMetadata` minus the `dtoClass` back-reference (the DTO class is
only consumed by schema discovery, whose result `validateClass` receives
here as an explicit argument). -/
structure LazyQLMetadata where
  fieldMappings : List (String × String)
  sharedMethods : List String
  requiredFields : List String
  optionalFields : List String
  options : LazyQLOptions := {}
deriving DecidableEq, Repr

/-- `new MissingGetterError(className, fieldName)` (`src/errors.ts`). -/
structure MissingGetterError where
  className : String
  fieldName : String
deriving DecidableEq, Repr

/-- The `warnings.push(...)` sites of `validateClass`, one constructor per
message shape. -/
inductive Warning where
  | skipValidation
  | explicitMappingNotFound (fieldName getterName : String)
  | optionalFieldNoGetter (fieldName expectedGetter : String)
  | unmatchedGetter (getterName : String)
deriving DecidableEq, Repr

/-! ## Validator (`src/core/validator.ts`) -/

/-- A field emitted by the heuristic `design:type` scan
(`scanForDecoratedFields`): nullability cannot be determined from
`design:type` alone, so `isRequired` is always set to `true` and the spec
grades such fields as Low confidence. -/
def scannedFieldInfo (name : String) : DTOFieldInfo :=
  { name := name, isRequired := true }

/-- The fallback loop of `validateClass` when discovery found nothing:
every getter not marked `@Shared` is registered under its
reverse-converted field name. -/
def registerAllGetters (sharedMethods : List String) (fm : List (String × String)) :
    List String → List (String × String)
  | [] => fm
  | g :: rest =>
    registerAllGetters sharedMethods
      (if sharedMethods.contains g then fm else mapSet fm (getterToFieldName g) g) rest

/-- The strict per-field loop of `validateClass`.  Note that in the source
`explicitMappings` aliases `metadata.fieldMappings`, so the explicit-mapping
check observes mappings added for earlier fields; the single threaded map
reproduces that. -/
def validateFields (className : String) (getterMethods : List String) :
    LazyQLMetadata → List DTOFieldInfo →
    Except MissingGetterError (List Warning × LazyQLMetadata)
  | md, [] => .ok ([], md)
  | md, field :: rest =>
    match alookup md.fieldMappings field.name with
    | some getterName =>
      if getterMethods.contains getterName then
        validateFields className getterMethods md rest
      else if field.isRequired then
        .error ⟨className, field.name⟩
      else
        match validateFields className getterMethods md rest with
        | .error e => .error e
        | .ok (ws, md') => .ok (.explicitMappingNotFound field.name getterName :: ws, md')
    | none =>
      let expectedGetter := fieldToGetterName field.name
      if getterMethods.contains expectedGetter then
        validateFields className getterMethods
          { md with
            fieldMappings := mapSet md.fieldMappings field.name expectedGetter
            requiredFields :=
              if field.isRequired then setAdd md.requiredFields field.name
              else md.requiredFields
            optionalFields :=
              if field.isRequired then md.optionalFields
              else setAdd md.optionalFields field.name } rest
      else if field.isRequired then
        .error ⟨className, field.name⟩
      else
        match validateFields className getterMethods
          { md with optionalFields := setAdd md.optionalFields field.name } rest with
        | .error e => .error e
        | .ok (ws, md') => .ok (.optionalFieldNoGetter field.name expectedGetter :: ws, md')

/-- The trailing dead-code pass of `validateClass`: getters matching no
discovered field. -/
def unmatchedGetterWarnings (dtoFields : List DTOFieldInfo) (md : LazyQLMetadata)
    (getterMethods : List String) : List Warning :=
  getterMethods.filterMap fun g =>
    let fieldName := getterToFieldName g
    if !(md.fieldMappings.map Prod.snd).contains g
        && !(alookup md.fieldMappings fieldName).isSome then
      if !(dtoFields.any fun fi => fi.name == fieldName)
          && !md.sharedMethods.contains g then
        some (.unmatchedGetter g)
      else none
    else none

/-- `validateClass(lazyClass, metadata)`.  `getterMethods` stands for
`getGetterMethods(lazyClass.prototype)` and `dtoFields` for
`analyzeDTOClass(metadata.dtoClass)`, both reflective inputs. -/
def validateClass (className : String) (getterMethods : List String)
    (md : LazyQLMetadata) (dtoFields : List DTOFieldInfo) :
    Except MissingGetterError (List Warning × LazyQLMetadata) :=
  if dtoFields.isEmpty then
    .ok ([.skipValidation],
      { md with
        fieldMappings := registerAllGetters md.sharedMethods md.fieldMappings getterMethods })
  else
    match validateFields className getterMethods md dtoFields with
    | .error e => .error e
    | .ok (ws, md') => .ok (ws ++ unmatchedGetterWarnings dtoFields md' getterMethods, md')

theorem filter_unshared_cons_shared {sh : List String} {g' : String} (rest : List String)
    (hs : sh.contains g' = true) :
    (g' :: rest).filter (fun x => !sh.contains x) =
      rest.filter (fun x => !sh.contains x) := by
  rw [List.filter_cons]
  have hm : g' ∈ sh := by simpa using hs
  simp [hm]

theorem filter_unshared_cons_unshared {sh : List String} {g' : String} (rest : List String)
    (hs : sh.contains g' = false) :
    (g' :: rest).filter (fun x => !sh.contains x) =
      g' :: rest.filter (fun x => !sh.contains x) := by
  rw [List.filter_cons]
  have hm : g' ∉ sh := by simpa using hs
  simp [hm]

theorem registerAllGetters_preserve (sh : List String) (getters : List String)
    (fm : List (String × String)) (k : String)
    (h : ∀ g ∈ getters, sh.contains g = false → getterToFieldName g ≠ k) :
    alookup (registerAllGetters sh fm getters) k = alookup fm k := by
  induction getters generalizing fm with
  | nil => rfl
  | cons g' rest ih =>
    rw [registerAllGetters]
    by_cases hs : sh.contains g' = true
    · rw [if_pos hs]
      exact ih fm (fun g hm hns => h g (by simp [hm]) hns)
    · rw [if_neg hs]
      rw [ih _ (fun g hm hns => h g (by simp [hm]) hns)]
      exact alookup_mapSet_ne fm _
        (Ne.symm (h g' (by simp) (by simpa using hs)))

theorem registerAllGetters_lookup (sh : List String) (getters : List String)
    (fm : List (String × String)) (g : String)
    (hnodup : ((getters.filter (fun x => !sh.contains x)).map getterToFieldName).Nodup)
    (hmem : g ∈ getters) (hns : sh.contains g = false) :
    alookup (registerAllGetters sh fm getters) (getterToFieldName g) = some g := by
  induction getters generalizing fm with
  | nil => cases hmem
  | cons g' rest ih =>
    rw [registerAllGetters]
    by_cases hs : sh.contains g' = true
    · rw [if_pos hs]
      rw [filter_unshared_cons_shared rest hs] at hnodup
      rcases List.mem_cons.mp hmem with hg | hg
      · subst hg
        rw [hns] at hs
        cases hs
      · exact ih fm hnodup hg
    · have hs' : sh.contains g' = false := by simpa using hs
      rw [if_neg hs]
      rw [filter_unshared_cons_unshared rest hs', List.map_cons, List.nodup_cons] at hnodup
      obtain ⟨hnotmem, hnodup'⟩ := hnodup
      rcases List.mem_cons.mp hmem with hg | hg
      · subst hg
        rw [registerAllGetters_preserve sh rest _ _ ?_]
        · exact alookup_mapSet_self fm _ _
        · intro x hx hxns heq
          exact hnotmem (heq ▸ List.mem_map_of_mem getterToFieldName
            (List.mem_filter.mpr ⟨hx, by simpa using hxns⟩))
      · exact ih _ hnodup' hg

/-- C6: when schema discovery returns an empty field list, `validateClass`
skips strict checking: it succeeds with exactly one warning (the
validation-skipped warning), registers every non-`@Shared` getter under its
reverse-converted field name, and leaves `requiredFields` and
`optionalFields` untouched. -/
theorem c6_empty_discovery_skips (className : String) (getters : List String)
    (md : LazyQLMetadata)
    (hnodup : ((getters.filter (fun x => !md.sharedMethods.contains x)).map
      getterToFieldName).Nodup) :
    ∃ md',
      validateClass className getters md [] = .ok ([.skipValidation], md') ∧
      md'.requiredFields = md.requiredFields ∧
      md'.optionalFields = md.optionalFields ∧
      ∀ g ∈ getters, md.sharedMethods.contains g = false →
        alookup md'.fieldMappings (getterToFieldName g) = some g := by
  refine ⟨_, rfl, rfl, rfl, ?_⟩
  intro g hmem hns
  exact registerAllGetters_lookup md.sharedMethods getters md.fieldMappings g hnodup hmem hns

/-- Witness for C6: a class with getters `getStatus` and `getAnything`
(the latter `@Shared`) against an undetectable DTO. -/
theorem c6_empty_discovery_skips_witness :
    ∃ md',
      validateClass "TestModel" ["getStatus", "getAnything"]
        ⟨[], ["getAnything"], [], [], {}⟩ [] = .ok ([.skipValidation], md') ∧
      md'.requiredFields = [] ∧
      md'.optionalFields = [] ∧
      ∀ g ∈ ["getStatus", "getAnything"],
        (["getAnything"] : List String).contains g = false →
        alookup md'.fieldMappings (getterToFieldName g) = some g :=
  c6_empty_discovery_skips "TestModel" ["getStatus", "getAnything"]
    ⟨[], ["getAnything"], [], [], {}⟩ (by decide)

/-- C3 (code behaviour at the failing input): a field produced by the
heuristic `design:type` scan — which the spec grades Low confidence and
which `scanForDecoratedFields` emits with `isRequired: true` — whose getter
is missing makes `validateClass` throw the hard `MissingGetterError`, with
no confidence-based downgrade anywhere in the code. -/
theorem c3_scanned_required_field_raises :
    validateClass "TestModel" ["getStatus"] ⟨[], [], [], [], {}⟩
      [scannedFieldInfo "email"] = .error ⟨"TestModel", "email"⟩ := by
  rfl

/-! ## Global configuration (`src/core/config.ts`)

`globalConfig` is a single mutable module-level object; `configure` mutates
its fields in place and `getConfig` returns the object itself (the
TypeScript `Readonly<>` is a compile-time view, not a copy).  The embedding
makes the aliasing explicit: the module state is a `LazyQLConfig` value,
`getConfig` returns the one reference there is, and reading through a
reference dereferences the state current at observation time. -/

/-- A JS `Error` value. -/
structure Err where
  msg : String
deriving DecidableEq, Repr

/-- `ErrorContext` (`src/types.ts`). -/
structure ErrorContext where
  className : String
  fieldName : String
  getterName : String
  error : Err

/-- `ErrorHandler`: return a (possibly transformed) error, or `null`
(= `none`) to suppress. -/
def ErrorHandler : Type := ErrorContext → Option Err

/-- `LazyQLConfig`.  The logger is observable only by identity (its body
merely writes to the console), so it is embedded as an identity token. -/
structure LazyQLConfig where
  debug : Bool
  logger : Nat
  onError : Option ErrorHandler
  timing : Bool

/-- The `defaultLogger` function object. -/
def defaultLoggerId : Nat := 0

/-- The initial value of `globalConfig` (also what `resetConfig` restores). -/
def defaultConfig : LazyQLConfig :=
  { debug := false, logger := defaultLoggerId, onError := none, timing := false }

/-- `Partial<LazyQLConfig>`: each field either absent (`undefined`) or
supplied.  `onError` can be supplied as `null`, hence the nested option. -/
structure ConfigPatch where
  debug : Option Bool := none
  logger : Option Nat := none
  onError : Option (Option ErrorHandler) := none
  timing : Option Bool := none

/-- `configure(options)`: overwrite exactly the fields that are not
`undefined` in `options`. -/
def configure (options : ConfigPatch) (g : LazyQLConfig) : LazyQLConfig :=
  { debug := match options.debug with | some b => b | none => g.debug
    logger := match options.logger with | some l => l | none => g.logger
    onError := match options.onError with | some h => h | none => g.onError
    timing := match options.timing with | some t => t | none => g.timing }

/-- References to the module's configuration objects: there is exactly one,
the `globalConfig` object. -/
inductive ConfigRef where
  | global
deriving DecidableEq, Repr

/-- `getConfig()` returns the `globalConfig` object itself. -/
def getConfig : ConfigRef := .global

/-- Reading a field through a config reference dereferences the module
state current at the time of the read. -/
def readConfig (r : ConfigRef) (current : LazyQLConfig) : LazyQLConfig :=
  match r with
  | .global => current

/-- `handleError(className, fieldName, getterName, error)`: run the
configured hook if any, else return the original error.  The `log` call is
side-effect only and elided. -/
def handleError (cfg : LazyQLConfig) (className fieldName getterName : String)
    (error : Err) : Option Err :=
  match cfg.onError with
  | some handler => handler ⟨className, fieldName, getterName, error⟩
  | none => some error

/-- C10 fails on the code: the record obtained from `getConfig` is the live
`globalConfig` object, so a `configure` call made afterwards changes the
`debug` value observable through it. -/
theorem c10_getConfig_snapshot_counterexample :
    (readConfig getConfig (configure { debug := some true } defaultConfig)).debug ≠
      (readConfig getConfig defaultConfig).debug := by
  decide

/-- C10 (amended): `getConfig` returns a read-only reference to the live
global configuration, not an immutable snapshot: every read through it
yields the current global state, so `configure` calls made after obtaining
it are observable through it. -/
theorem c10_getConfig_live_view (g : LazyQLConfig) (o : ConfigPatch) :
    readConfig getConfig g = g ∧
    readConfig getConfig (configure o g) = configure o g :=
  ⟨rfl, rfl⟩

/-! ## Resolution interceptor (`src/core/proxy-factory.ts`)

The string-property paths of the `get`, `has` and `ownKeys` traps of
`createLazyProxy`.  The symbol branches (`LAZY_INSTANCE`, `IS_LAZY_PROXY`,
other symbols) return the target, `true`, or `Reflect.get` without touching
any field logic and are outside the string-property domain modelled here.
`maybeWrapNested` is abstracted as a value transformer `wrapNested`
parameter (it never invokes a computation method), and debug/timing calls
are side-effect only and elided. -/

/-- A JS value as far as the traps can observe one: `undefined`, `null`, or
any other non-function value by identity. -/
inductive JsVal where
  | undef
  | null
  | value (id : Nat)
deriving DecidableEq, Repr

/-- Settlement of a promise returned by a computation method. -/
inductive AsyncOutcome where
  | resolves (v : JsVal)
  | rejects (e : Err)
deriving DecidableEq, Repr

/-- What a computation method does when invoked on `this`. -/
inductive FuncBehavior where
  | retSync (v : JsVal)
  | throwErr (e : Err)
  | retAsync (o : AsyncOutcome)
deriving DecidableEq, Repr

/-- One property slot of the underlying instance: absent, a data value, or
a function. -/
inductive Slot where
  | missing
  | val (v : JsVal)
  | method (b : FuncBehavior)
deriving DecidableEq, Repr

/-- The underlying (already `wrapSharedMethods`-processed) instance:
its named properties and its own keys (`Reflect.ownKeys`, string part). -/
structure Instance where
  slots : String → Slot
  ownKeysNative : List String

def isFunctionSlot : Slot → Bool
  | .method _ => true
  | _ => false

/-- `Reflect.has(target, prop)`. -/
def nativeHas (inst : Instance) (p : String) : Bool :=
  match inst.slots p with
  | .missing => false
  | _ => true

/-- What a property read through the proxy evaluates to. -/
inductive ReadOutcome where
  | ret (v : JsVal)
  | retMethod (b : FuncBehavior)
  | throws (e : Err)
  | asyncRet (v : JsVal)
  | asyncThrows (e : Err)
deriving DecidableEq, Repr

/-- Field-name resolution in the `get`/`has` traps: the explicit mapping if
present (and truthy), else the naming convention. -/
def resolveGetterName (md : LazyQLMetadata) (fieldName : String) : String :=
  match alookup md.fieldMappings fieldName with
  | some g => if g == "" then fieldToGetterName fieldName else g
  | none => fieldToGetterName fieldName

/-- `Reflect.get` followed by the trap's
`if (directValue !== undefined) return directValue; return undefined`. -/
def readDirectSlot : Slot → ReadOutcome
  | .missing => .ret .undef
  | .val v => .ret v
  | .method b => .retMethod b

/-- The `get` trap of `createLazyProxy` on a string property, paired with
the list of computation methods it invokes (the instrumentation the
laziness claims are about). -/
def getTrapStr (md : LazyQLMetadata) (cfg : LazyQLConfig) (wrapNested : JsVal → JsVal)
    (inst : Instance) (className fieldName : String) : ReadOutcome × List String :=
  if fieldName == "constructor" || fieldName == "toString" || fieldName == "valueOf" then
    (readDirectSlot (inst.slots fieldName), [])
  else
    let getterName := resolveGetterName md fieldName
    match inst.slots getterName with
    | .method b =>
      match b with
      | .retSync v => (.ret (wrapNested v), [getterName])
      | .throwErr e =>
        match handleError cfg className fieldName getterName e with
        | some e' => (.throws e', [getterName])
        | none => (.ret .null, [getterName])
      | .retAsync (.resolves v) => (.asyncRet (wrapNested v), [getterName])
      | .retAsync (.rejects e) =>
        match handleError cfg className fieldName getterName e with
        | some e' => (.asyncThrows e', [getterName])
        | none => (.asyncRet .null, [getterName])
    | _ =>
      if md.optionalFields.contains fieldName then
        (.ret .null, [])
      else
        (readDirectSlot (inst.slots fieldName), [])

/-- The `has` trap on a string property. -/
def hasTrapStr (md : LazyQLMetadata) (inst : Instance) (fieldName : String) : Bool :=
  if isFunctionSlot (inst.slots (resolveGetterName md fieldName)) then true
  else nativeHas inst fieldName

/-- `Set.add` step used while building the `ownKeys` result. -/
def addKey (acc : List String) (k : String) : List String :=
  if acc.contains k then acc else acc ++ [k]

/-- The `ownKeys` trap: mapped field names, then optional field names, then
the instance's own keys, deduplicated in insertion order. -/
def ownKeysTrap (md : LazyQLMetadata) (inst : Instance) : List String :=
  (md.fieldMappings.map Prod.fst ++ md.optionalFields ++ inst.ownKeysNative).foldl addKey []

theorem getTrap_invoked_subset (md : LazyQLMetadata) (cfg : LazyQLConfig)
    (wrapNested : JsVal → JsVal) (inst : Instance) (className fieldName : String) :
    (getTrapStr md cfg wrapNested inst className fieldName).2 = [] ∨
    (getTrapStr md cfg wrapNested inst className fieldName).2 =
      [resolveGetterName md fieldName] := by
  unfold getTrapStr
  split
  · simp
  · cases hs : inst.slots (resolveGetterName md fieldName) with
    | missing =>
      simp only [hs]
      split <;> simp [readDirectSlot]
    | val v =>
      simp only [hs]
      split <;> simp [readDirectSlot]
    | method b =>
      cases b with
      | retSync v => simp [hs]
      | throwErr e =>
        cases hh : handleError cfg className fieldName (resolveGetterName md fieldName) e <;>
          simp [hs, hh]
      | retAsync o =>
        cases o with
        | resolves v => simp [hs]
        | rejects e =>
          cases hh : handleError cfg className fieldName (resolveGetterName md fieldName) e <;>
            simp [hs, hh]

/-- C1: reading the field resolved to computation method `mA` never invokes
a different computation method `mB` — laziness of field resolution. -/
theorem c1_lazy_resolution (md : LazyQLMetadata) (cfg : LazyQLConfig)
    (wrapNested : JsVal → JsVal) (inst : Instance) (className fA fB mA mB : String)
    (hA : resolveGetterName md fA = mA) (hB : resolveGetterName md fB = mB)
    (hne : mB ≠ mA) :
    ((getTrapStr md cfg wrapNested inst className fA).2).count mB = 0 := by
  rcases getTrap_invoked_subset md cfg wrapNested inst className fA with h | h
  · rw [h]
    rfl
  · rw [h, hA, List.count_singleton']
    simp [Ne.symm hne]

/-- Witness for C1: a class with `entity_id ↦ getEntityId` and
`customer_email ↦ getCustomerEmail`; reading `entity_id` leaves
`getCustomerEmail` uninvoked. -/
theorem c1_lazy_resolution_witness :
    ((getTrapStr ⟨[], [], [], [], {}⟩ defaultConfig id
      ⟨fun _ => Slot.method (.retSync (.value 42)), []⟩
      "Order" "entity_id").2).count "getCustomerEmail" = 0 :=
  c1_lazy_resolution ⟨[], [], [], [], {}⟩ defaultConfig id
    ⟨fun _ => Slot.method (.retSync (.value 42)), []⟩
    "Order" "entity_id" "customer_email" "getEntityId" "getCustomerEmail"
    (by decide) (by decide) (by decide)

/-- C4: failure routing of a field read.  For a computation method that
throws synchronously or whose promise rejects: with no hook configured the
original failure propagates unchanged; a hook returning an error makes that
error propagate instead; a hook returning `null` suppresses the failure and
the read evaluates to `null`. -/
theorem c4_error_routing (md : LazyQLMetadata) (cfg : LazyQLConfig)
    (wrapNested : JsVal → JsVal) (inst : Instance) (className f g : String) (e : Err)
    (hres : (f == "constructor" || f == "toString" || f == "valueOf") = false)
    (hg : resolveGetterName md f = g) :
    (inst.slots g = .method (.throwErr e) →
      (cfg.onError = none →
        getTrapStr md cfg wrapNested inst className f = (.throws e, [g])) ∧
      (∀ hdl e', cfg.onError = some hdl → hdl ⟨className, f, g, e⟩ = some e' →
        getTrapStr md cfg wrapNested inst className f = (.throws e', [g])) ∧
      (∀ hdl, cfg.onError = some hdl → hdl ⟨className, f, g, e⟩ = none →
        getTrapStr md cfg wrapNested inst className f = (.ret .null, [g]))) ∧
    (inst.slots g = .method (.retAsync (.rejects e)) →
      (cfg.onError = none →
        getTrapStr md cfg wrapNested inst className f = (.asyncThrows e, [g])) ∧
      (∀ hdl e', cfg.onError = some hdl → hdl ⟨className, f, g, e⟩ = some e' →
        getTrapStr md cfg wrapNested inst className f = (.asyncThrows e', [g])) ∧
      (∀ hdl, cfg.onError = some hdl → hdl ⟨className, f, g, e⟩ = none →
        getTrapStr md cfg wrapNested inst className f = (.asyncRet .null, [g]))) := by
  subst hg
  constructor
  · intro hslot
    refine ⟨?_, ?_, ?_⟩
    · intro hnone
      unfold getTrapStr handleError
      simp [hres, hslot, hnone]
    · intro hdl e' hsome hret
      unfold getTrapStr handleError
      simp [hres, hslot, hsome, hret]
    · intro hdl hsome hret
      unfold getTrapStr handleError
      simp [hres, hslot, hsome, hret]
  · intro hslot
    refine ⟨?_, ?_, ?_⟩
    · intro hnone
      unfold getTrapStr handleError
      simp [hres, hslot, hnone]
    · intro hdl e' hsome hret
      unfold getTrapStr handleError
      simp [hres, hslot, hsome, hret]
    · intro hdl hsome hret
      unfold getTrapStr handleError
      simp [hres, hslot, hsome, hret]

/-- Witness for C4: a suppressing hook turns a synchronously thrown error
into a `null` field value (with other parts of C4 exercised through the
other conjuncts of the same theorem instance). -/
theorem c4_error_routing_witness :
    getTrapStr ⟨[], [], [], [], {}⟩
      { debug := false, logger := 0, onError := some (fun _ => none), timing := false } id
      ⟨fun _ => Slot.method (.throwErr ⟨"boom"⟩), []⟩ "Order" "status" =
      (.ret .null, ["getStatus"]) :=
  ((c4_error_routing ⟨[], [], [], [], {}⟩
      { debug := false, logger := 0, onError := some (fun _ => none), timing := false } id
      ⟨fun _ => Slot.method (.throwErr ⟨"boom"⟩), []⟩ "Order" "status" "getStatus" ⟨"boom"⟩
      (by decide) (by decide)).1 rfl).2.2 (fun _ => none) rfl rfl

/-- C8: when neither the mapped nor the conventionally-named getter exists
as a function on the instance: a known optional field reads as `null`;
otherwise the read falls back to the instance's own property value when
present, and to `undefined` (distinct from `null`) when absent. -/
theorem c8_no_getter_fallback (md : LazyQLMetadata) (cfg : LazyQLConfig)
    (wrapNested : JsVal → JsVal) (inst : Instance) (className f : String)
    (hres : (f == "constructor" || f == "toString" || f == "valueOf") = false)
    (hng : isFunctionSlot (inst.slots (resolveGetterName md f)) = false) :
    (md.optionalFields.contains f = true →
      getTrapStr md cfg wrapNested inst className f = (.ret .null, [])) ∧
    (md.optionalFields.contains f = false →
      (inst.slots f = .missing →
        getTrapStr md cfg wrapNested inst className f = (.ret .undef, [])) ∧
      ∀ v, inst.slots f = .val v →
        getTrapStr md cfg wrapNested inst className f = (.ret v, [])) := by
  cases hs : inst.slots (resolveGetterName md f) with
  | method b => rw [hs] at hng; cases hng
  | missing =>
    constructor
    · intro hopt
      have hm : f ∈ md.optionalFields := by simpa using hopt
      unfold getTrapStr
      simp [hres, hs, hm]
    · intro hopt
      have hm : f ∉ md.optionalFields := by simpa using hopt
      constructor
      · intro hdir
        unfold getTrapStr
        simp [hres, hs, hm, hdir, readDirectSlot]
      · intro v hdir
        unfold getTrapStr
        simp [hres, hs, hm, hdir, readDirectSlot]
  | val w =>
    constructor
    · intro hopt
      have hm : f ∈ md.optionalFields := by simpa using hopt
      unfold getTrapStr
      simp [hres, hs, hm]
    · intro hopt
      have hm : f ∉ md.optionalFields := by simpa using hopt
      constructor
      · intro hdir
        unfold getTrapStr
        simp [hres, hs, hm, hdir, readDirectSlot]
      · intro v hdir
        unfold getTrapStr
        simp [hres, hs, hm, hdir, readDirectSlot]

/-- Witness for C8: an unmapped, unknown field falls back to the instance's
own property, and a known optional field without a getter reads as `null`. -/
theorem c8_no_getter_fallback_witness :
    getTrapStr ⟨[], [], [], ["nickname"], {}⟩ defaultConfig id
      ⟨fun _ => Slot.missing, []⟩ "Order" "nickname" = (.ret .null, []) :=
  (c8_no_getter_fallback ⟨[], [], [], ["nickname"], {}⟩ defaultConfig id
      ⟨fun _ => Slot.missing, []⟩ "Order" "nickname"
      (by decide) (by decide)).1 (by decide)

theorem mem_addKey {acc : List String} {x k : String} : k ∈ addKey acc x ↔ k ∈ acc ∨ k = x := by
  unfold addKey
  split
  · rename_i h
    have hx : x ∈ acc := by simpa using h
    constructor
    · exact fun hm => Or.inl hm
    · rintro (hm | rfl)
      · exact hm
      · exact hx
  · simp

theorem mem_foldl_addKey (l : List String) (acc : List String) (k : String) :
    k ∈ l.foldl addKey acc ↔ k ∈ acc ∨ k ∈ l := by
  induction l generalizing acc with
  | nil => simp
  | cons x l' ih =>
    rw [List.foldl_cons, ih, mem_addKey]
    simp [or_assoc]

/-- C9: the `has` trap reports a string field present iff the mapped or
conventionally-named getter exists as a function on the instance or the
property natively exists; the `ownKeys` trap enumerates exactly the union
of mapped field names, optional field names and the instance's own keys. -/
theorem c9_membership_enumeration (md : LazyQLMetadata) (inst : Instance) (f k : String) :
    (hasTrapStr md inst f = true ↔
      isFunctionSlot (inst.slots (resolveGetterName md f)) = true ∨
        nativeHas inst f = true) ∧
    (k ∈ ownKeysTrap md inst ↔
      (alookup md.fieldMappings k).isSome = true ∨ k ∈ md.optionalFields ∨
        k ∈ inst.ownKeysNative) := by
  constructor
  · unfold hasTrapStr
    by_cases hfun : isFunctionSlot (inst.slots (resolveGetterName md f)) = true
    · simp [hfun]
    · simp [hfun]
  · unfold ownKeysTrap
    rw [mem_foldl_addKey]
    simp [alookup_isSome_iff_mem_keys, or_assoc]

/-! ## Shared-computation memoization (`wrapSharedMethods`)

`wrapSharedMethods` replaces each `@Shared` method on the instance with a
wrapper over two per-instance maps: `cache` (settled values) and `pending`
(in-flight promises).  Concurrency is cooperative: the only interleaving
points are promise settlements, so an execution is a sequence of events —
synchronous wrapper calls (`access`) and settlements of the underlying
promise (the `.then`/`.catch` continuations the wrapper attaches).  Pending
promise objects are identified by the `nextId` counter; `invocations` logs
every call of an original (unwrapped) method, the counter instrumentation
of the claims. -/

structure SharedState where
  cache : List (String × JsVal)
  pending : List (String × Nat)
  nextId : Nat
  invocations : List String
deriving DecidableEq, Repr

def initialSharedState : SharedState := ⟨[], [], 0, []⟩

/-- What one wrapper call returns to its caller. -/
inductive SharedOutcome where
  | cacheHit (v : JsVal)
  | pendingHit (id : Nat)
  | startedAsync (id : Nat)
  | syncValue (v : JsVal)
  | syncThrow (e : Err)
deriving DecidableEq, Repr

/-- One call of the wrapper installed for `methodName`: check `cache`, then
`pending`, then invoke the original method; a synchronous result is cached
immediately, a promise is stored in `pending` under a fresh handle and that
same handle is returned. -/
def sharedAccess (orig : String → FuncBehavior) (st : SharedState)
    (methodName : String) : SharedOutcome × SharedState :=
  match alookup st.cache methodName with
  | some v => (.cacheHit v, st)
  | none =>
    match alookup st.pending methodName with
    | some id => (.pendingHit id, st)
    | none =>
      let st1 := { st with invocations := st.invocations ++ [methodName] }
      match orig methodName with
      | .retAsync _ =>
        (.startedAsync st1.nextId,
          { st1 with
            pending := mapSet st1.pending methodName st1.nextId
            nextId := st1.nextId + 1 })
      | .retSync v => (.syncValue v, { st1 with cache := mapSet st1.cache methodName v })
      | .throwErr e => (.syncThrow e, st1)

/-- The `.then` continuation: move the resolved value to `cache` and drop
the `pending` entry. -/
def sharedSettleSuccess (st : SharedState) (methodName : String) (v : JsVal) : SharedState :=
  { st with
    cache := mapSet st.cache methodName v
    pending := eraseKey st.pending methodName }

/-- The `.catch` continuation: only drop the `pending` entry — the failure
is re-thrown, nothing is cached. -/
def sharedSettleFailure (st : SharedState) (methodName : String) : SharedState :=
  { st with pending := eraseKey st.pending methodName }

inductive SharedEvent where
  | access (methodName : String)
  | settleSuccess (methodName : String) (v : JsVal)
  | settleFailure (methodName : String) (e : Err)
deriving DecidableEq, Repr

/-- Run a sequence of events, collecting the outcome of every `access`. -/
def sharedRun (orig : String → FuncBehavior) :
    SharedState → List SharedEvent → SharedState × List SharedOutcome
  | st, [] => (st, [])
  | st, .access m :: rest =>
    let p := sharedAccess orig st m
    let q := sharedRun orig p.2 rest
    (q.1, p.1 :: q.2)
  | st, .settleSuccess m v :: rest => sharedRun orig (sharedSettleSuccess st m v) rest
  | st, .settleFailure m _ :: rest => sharedRun orig (sharedSettleFailure st m) rest

theorem sharedRun_append (orig : String → FuncBehavior) (st : SharedState)
    (t1 t2 : List SharedEvent) :
    sharedRun orig st (t1 ++ t2) =
      ((sharedRun orig (sharedRun orig st t1).1 t2).1,
        (sharedRun orig st t1).2 ++ (sharedRun orig (sharedRun orig st t1).1 t2).2) := by
  induction t1 generalizing st with
  | nil => simp [sharedRun]
  | cons ev rest ih =>
    cases ev with
    | access m => simp [sharedRun, ih]
    | settleSuccess m v => simp [sharedRun, ih]
    | settleFailure m e => simp [sharedRun, ih]

theorem sharedRun_pending_phase (orig : String → FuncBehavior) (m : String) (id : Nat)
    (k : Nat) (st : SharedState)
    (hc : alookup st.cache m = none) (hp : alookup st.pending m = some id) :
    sharedRun orig st (List.replicate k (SharedEvent.access m)) =
      (st, List.replicate k (SharedOutcome.pendingHit id)) := by
  induction k with
  | zero => rfl
  | succ k' ih =>
    rw [List.replicate_succ]
    show (let p := sharedAccess orig st m
      let q := sharedRun orig p.2 (List.replicate k' (SharedEvent.access m))
      (q.1, p.1 :: q.2)) = _
    have ha : sharedAccess orig st m = (.pendingHit id, st) := by
      unfold sharedAccess
      rw [hc, hp]
    rw [ha]
    simp [ih, List.replicate_succ]

theorem sharedRun_cached_phase (orig : String → FuncBehavior) (m : String) (v : JsVal)
    (j : Nat) (st : SharedState) (hc : alookup st.cache m = some v) :
    sharedRun orig st (List.replicate j (SharedEvent.access m)) =
      (st, List.replicate j (SharedOutcome.cacheHit v)) := by
  induction j with
  | zero => rfl
  | succ j' ih =>
    rw [List.replicate_succ]
    show (let p := sharedAccess orig st m
      let q := sharedRun orig p.2 (List.replicate j' (SharedEvent.access m))
      (q.1, p.1 :: q.2)) = _
    have ha : sharedAccess orig st m = (.cacheHit v, st) := by
      unfold sharedAccess
      rw [hc]
    rw [ha]
    simp [ih, List.replicate_succ]

/-- C2: any number of accesses to one shared asynchronous computation that
overlap its settlement invoke the underlying method exactly once — the
first access stores and returns a pending handle, every access before
settlement returns that same handle without re-invoking, and every access
after successful settlement returns the cached resolved value. -/
theorem c2_shared_collapse (orig : String → FuncBehavior) (m : String)
    (ao : AsyncOutcome) (v : JsVal) (k j : Nat)
    (horig : orig m = .retAsync ao) :
    (sharedRun orig initialSharedState
        (SharedEvent.access m ::
          (List.replicate k (SharedEvent.access m) ++
            SharedEvent.settleSuccess m v ::
              List.replicate j (SharedEvent.access m)))).1.invocations.count m = 1 ∧
    (sharedRun orig initialSharedState
        (SharedEvent.access m ::
          (List.replicate k (SharedEvent.access m) ++
            SharedEvent.settleSuccess m v ::
              List.replicate j (SharedEvent.access m)))).2 =
      SharedOutcome.startedAsync 0 ::
        (List.replicate k (SharedOutcome.pendingHit 0) ++
          List.replicate j (SharedOutcome.cacheHit v)) := by
  have ha : sharedAccess orig initialSharedState m =
      (.startedAsync 0, ⟨[], [(m, 0)], 1, [m]⟩) := by
    unfold sharedAccess initialSharedState
    rw [horig]
    rfl
  have hrun1 : ∀ rest, sharedRun orig initialSharedState (SharedEvent.access m :: rest) =
      ((sharedRun orig ⟨[], [(m, 0)], 1, [m]⟩ rest).1,
        SharedOutcome.startedAsync 0 :: (sharedRun orig ⟨[], [(m, 0)], 1, [m]⟩ rest).2) := by
    intro rest
    show (let p := sharedAccess orig initialSharedState m
      let q := sharedRun orig p.2 rest
      (q.1, p.1 :: q.2)) = _
    rw [ha]
  have hpend := sharedRun_pending_phase orig m 0 k ⟨[], [(m, 0)], 1, [m]⟩
    (by rfl) (by simp [alookup])
  have hBstate : sharedSettleSuccess ⟨[], [(m, 0)], 1, [m]⟩ m v =
      ⟨[(m, v)], [], 1, [m]⟩ := by
    unfold sharedSettleSuccess
    simp [mapSet, eraseKey]
  have hcach := sharedRun_cached_phase orig m v j ⟨[(m, v)], [], 1, [m]⟩
    (by simp [alookup])
  rw [hrun1, sharedRun_append]
  rw [hpend]
  show _ ∧ SharedOutcome.startedAsync 0 ::
    (List.replicate k (SharedOutcome.pendingHit 0) ++
      (sharedRun orig ⟨[], [(m, 0)], 1, [m]⟩
        (SharedEvent.settleSuccess m v :: List.replicate j (SharedEvent.access m))).2) = _
  have hsettle : sharedRun orig ⟨[], [(m, 0)], 1, [m]⟩
      (SharedEvent.settleSuccess m v :: List.replicate j (SharedEvent.access m)) =
      (⟨[(m, v)], [], 1, [m]⟩, List.replicate j (SharedOutcome.cacheHit v)) := by
    show sharedRun orig (sharedSettleSuccess ⟨[], [(m, 0)], 1, [m]⟩ m v)
      (List.replicate j (SharedEvent.access m)) = _
    rw [hBstate, hcach]
  rw [hsettle]
  constructor
  · simp
  · rfl

/-- Witness for C2: three overlapping accesses before settlement and two
after, on `getSharedData`. -/
theorem c2_shared_collapse_witness :
    (sharedRun (fun _ => FuncBehavior.retAsync (.resolves (.value 7))) initialSharedState
        (SharedEvent.access "getSharedData" ::
          (List.replicate 2 (SharedEvent.access "getSharedData") ++
            SharedEvent.settleSuccess "getSharedData" (.value 7) ::
              List.replicate 2 (SharedEvent.access "getSharedData")))).1.invocations.count
        "getSharedData" = 1 ∧
    (sharedRun (fun _ => FuncBehavior.retAsync (.resolves (.value 7))) initialSharedState
        (SharedEvent.access "getSharedData" ::
          (List.replicate 2 (SharedEvent.access "getSharedData") ++
            SharedEvent.settleSuccess "getSharedData" (.value 7) ::
              List.replicate 2 (SharedEvent.access "getSharedData")))).2 =
      SharedOutcome.startedAsync 0 ::
        (List.replicate 2 (SharedOutcome.pendingHit 0) ++
          List.replicate 2 (SharedOutcome.cacheHit (.value 7))) :=
  c2_shared_collapse (fun _ => FuncBehavior.retAsync (.resolves (.value 7)))
    "getSharedData" (.resolves (.value 7)) (.value 7) 2 2 rfl

/-- C5: when a shared asynchronous computation rejects, its `pending` entry
is removed and nothing reaches `cache`, so the next access re-invokes the
underlying method — failures are never memoized. -/
theorem c5_failure_not_memoized (orig : String → FuncBehavior) (m : String)
    (ao : AsyncOutcome) (e : Err) (horig : orig m = .retAsync ao) :
    alookup (sharedRun orig initialSharedState
      [SharedEvent.access m, SharedEvent.settleFailure m e]).1.cache m = none ∧
    alookup (sharedRun orig initialSharedState
      [SharedEvent.access m, SharedEvent.settleFailure m e]).1.pending m = none ∧
    (sharedRun orig initialSharedState
      [SharedEvent.access m, SharedEvent.settleFailure m e]).1.invocations.count m = 1 ∧
    (sharedRun orig (sharedRun orig initialSharedState
        [SharedEvent.access m, SharedEvent.settleFailure m e]).1
      [SharedEvent.access m]).1.invocations.count m = 2 ∧
    (sharedRun orig (sharedRun orig initialSharedState
        [SharedEvent.access m, SharedEvent.settleFailure m e]).1
      [SharedEvent.access m]).2 = [SharedOutcome.startedAsync 1] := by
  have ha : sharedAccess orig initialSharedState m =
      (.startedAsync 0, ⟨[], [(m, 0)], 1, [m]⟩) := by
    unfold sharedAccess initialSharedState
    rw [horig]
    rfl
  have h1 : sharedRun orig initialSharedState
      [SharedEvent.access m, SharedEvent.settleFailure m e] =
      (⟨[], [], 1, [m]⟩, [SharedOutcome.startedAsync 0]) := by
    show (let p := sharedAccess orig initialSharedState m
      let q := sharedRun orig p.2 [SharedEvent.settleFailure m e]
      (q.1, p.1 :: q.2)) = _
    rw [ha]
    show ((sharedRun orig (sharedSettleFailure ⟨[], [(m, 0)], 1, [m]⟩ m) []).1,
      SharedOutcome.startedAsync 0 ::
        (sharedRun orig (sharedSettleFailure ⟨[], [(m, 0)], 1, [m]⟩ m) []).2) = _
    have : sharedSettleFailure ⟨[], [(m, 0)], 1, [m]⟩ m = ⟨[], [], 1, [m]⟩ := by
      unfold sharedSettleFailure
      simp [eraseKey]
    rw [this]
    rfl
  have ha2 : sharedAccess orig ⟨[], [], 1, [m]⟩ m =
      (.startedAsync 1, ⟨[], [(m, 1)], 2, [m, m]⟩) := by
    unfold sharedAccess
    rw [horig]
    rfl
  have h2 : sharedRun orig (⟨[], [], 1, [m]⟩ : SharedState) [SharedEvent.access m] =
      (⟨[], [(m, 1)], 2, [m, m]⟩, [SharedOutcome.startedAsync 1]) := by
    show (let p := sharedAccess orig (⟨[], [], 1, [m]⟩ : SharedState) m
      let q := sharedRun orig p.2 []
      (q.1, p.1 :: q.2)) = _
    rw [ha2]
    rfl
  rw [h1]
  refine ⟨rfl, rfl, by simp, ?_, ?_⟩
  · rw [h2]
    simp
  · rw [h2]

/-- Witness for C5: a rejecting `getSharedData`. -/
theorem c5_failure_not_memoized_witness :
    alookup (sharedRun (fun _ => FuncBehavior.retAsync (.rejects ⟨"db down"⟩))
      initialSharedState
      [SharedEvent.access "getSharedData",
        SharedEvent.settleFailure "getSharedData" ⟨"db down"⟩]).1.cache "getSharedData" =
      none ∧
    alookup (sharedRun (fun _ => FuncBehavior.retAsync (.rejects ⟨"db down"⟩))
      initialSharedState
      [SharedEvent.access "getSharedData",
        SharedEvent.settleFailure "getSharedData" ⟨"db down"⟩]).1.pending "getSharedData" =
      none ∧
    (sharedRun (fun _ => FuncBehavior.retAsync (.rejects ⟨"db down"⟩))
      initialSharedState
      [SharedEvent.access "getSharedData",
        SharedEvent.settleFailure "getSharedData" ⟨"db down"⟩]).1.invocations.count
      "getSharedData" = 1 ∧
    (sharedRun (fun _ => FuncBehavior.retAsync (.rejects ⟨"db down"⟩))
      (sharedRun (fun _ => FuncBehavior.retAsync (.rejects ⟨"db down"⟩))
        initialSharedState
        [SharedEvent.access "getSharedData",
          SharedEvent.settleFailure "getSharedData" ⟨"db down"⟩]).1
      [SharedEvent.access "getSharedData"]).1.invocations.count "getSharedData" = 2 ∧
    (sharedRun (fun _ => FuncBehavior.retAsync (.rejects ⟨"db down"⟩))
      (sharedRun (fun _ => FuncBehavior.retAsync (.rejects ⟨"db down"⟩))
        initialSharedState
        [SharedEvent.access "getSharedData",
          SharedEvent.settleFailure "getSharedData" ⟨"db down"⟩]).1
      [SharedEvent.access "getSharedData"]).2 = [SharedOutcome.startedAsync 1] :=
  c5_failure_not_memoized (fun _ => FuncBehavior.retAsync (.rejects ⟨"db down"⟩))
    "getSharedData" (.rejects ⟨"db down"⟩) ⟨"db down"⟩ rfl

end LazyQL
